import Mathlib

/-!
Verification of the bag-of-words preprocessing pipeline
(`dariah_topics/preprocessing.py`).

The Python functions are shallowly embedded as executable Lean functions:

* Python `dict` values are association lists with distinct keys
  (`List (String × Nat)`); `dictGet` is key lookup.
* `collections.Counter` over a list of token ids is embedded by `pyCounter`:
  the distinct ids in first-occurrence order (Python dict insertion order),
  each paired with its multiplicity.
* The pandas sparse bag-of-words `DataFrame` is the list of its rows
  `((doc_id, token_id), count)` in index order.
* Generators are embedded as the finite list of their yields; the one
  unbounded loop (`segment_fuzzy`) is embedded with explicit fuel so that
  non-termination is observable as exhaustion at every fuel.
-/

namespace Topics

/-- Distinct elements of `l` in first-occurrence order, with an accumulator of
elements already seen.  This is the iteration order of a Python `dict` /
`Counter` built by inserting the elements of `l` in order. -/
def dedupFirstAux {α : Type} [DecidableEq α] (seen : List α) : List α → List α
  | [] => []
  | a :: l => if a ∈ seen then dedupFirstAux seen l else a :: dedupFirstAux (a :: seen) l

/-- Distinct elements of `l`, first occurrences first. -/
def dedupFirst {α : Type} [DecidableEq α] (l : List α) : List α :=
  dedupFirstAux [] l

/-- A Python `dict` mapping token strings to integer ids, embedded as an
association list whose keys are distinct. -/
abbrev TypeDict := List (String × Nat)

/-- Lookup of `w` in a dictionary; `0` when the key is absent (the Python code
would raise `KeyError`, and every theorem hypothesises that the needed keys
are present). -/
def dictGet (d : TypeDict) (w : String) : Nat :=
  ((d.find? (fun p => p.1 == w)).map Prod.snd).getD 0

/-- `w` is a key of `d` (Python `w in d`). -/
def hasKey (d : TypeDict) (w : String) : Bool :=
  (d.find? (fun p => p.1 == w)).isSome

/-- `create_dictionary` (preprocessing.py:427-447) on a flat token list:
`{token: id_ for id_, token in enumerate(set(tokens), 1)}`.  The iteration
order of the Python `set` is unspecified; the embedding fixes it to
first-occurrence order (`dedupFirst`), and every property proved about the
result is independent of that choice. -/
def create_dictionary (tokens : List String) : TypeDict :=
  (dedupFirst tokens).enum.map (fun p => (p.2, p.1 + 1))

/-- `create_dictionary` on a nested (list-of-lists) token collection:
the source flattens `{token for element in tokens for token in element}`
before deduplicating, i.e. it builds the dictionary of the concatenation. -/
def create_dictionary_nested (tokens : List (List String)) : TypeDict :=
  create_dictionary tokens.flatten

/-- `collections.Counter` of a list of token ids: the distinct ids in
first-occurrence order (Python dict insertion order), each with its
multiplicity. -/
def pyCounter (ids : List Nat) : List (Nat × Nat) :=
  (dedupFirst ids).map (fun k => (k, ids.count k))

/-- Counter lookup `c[t]`: a missing key yields `0`
(`Counter.__missing__`). -/
def counterGet (c : List (Nat × Nat)) (t : Nat) : Nat :=
  ((c.find? (fun p => p.1 == t)).map Prod.snd).getD 0

/-- `_create_large_counter` (preprocessing.py:450-479): `{label:
Counter([type_dictionary[token] for token in tokens])}` over
`zip(doc_labels, doc_tokens)`.  The Python `defaultdict` overwrites on a
duplicate label; the association list coincides with it for distinct labels,
which every theorem hypothesises (via the document-dictionary hypothesis). -/
def _create_large_counter (doc_labels : List String) (doc_tokens : List (List String))
    (type_dictionary : TypeDict) : List (String × List (Nat × Nat)) :=
  (doc_labels.zip doc_tokens).map
    (fun p => (p.1, pyCounter (p.2.map (dictGet type_dictionary))))

/-- Lookup in the doc-id-keyed counter dictionary; `[]` when the key is
absent (Python raises `KeyError` there; the theorems hypothesise the document
dictionary maps the labels onto `1..N`, within which lookup succeeds). -/
def lcGet (lc : List (Nat × List (Nat × Nat))) (k : Nat) : List (Nat × Nat) :=
  ((lc.find? (fun p => p.1 == k)).map Prod.snd).getD []

/-- `_create_sparse_index` (preprocessing.py:482-512): for each `key` in
`range(1, len(largecounter) + 1)`, a sentinel tuple `(key, 0)` when the
counter of `key` is empty, then one tuple `(key, token_id)` per counter key
in counter-iteration order. -/
def _create_sparse_index (largecounter : List (Nat × List (Nat × Nat))) : List (Nat × Nat) :=
  (List.range' 1 largecounter.length).flatMap (fun key =>
    let c := lcGet largecounter key
    (if c.isEmpty then [(key, 0)] else []) ++ c.map (fun p => (key, p.1)))

/-- `create_sparse_bow` (preprocessing.py:515-567).  The source allocates a
zero-filled frame over the sparse index and then, for each `doc_id` in
`range(1, len(levels[0]) + 1)` and each index tuple of that document, does
`set_value((doc_id, token_id), largecounter[doc_id][token_id])`.  Every index
tuple has `doc_id ∈ 1..len(largecounter)` by construction and each tuple is
distinct, so the filled frame is exactly the index with each tuple `(d, t)`
carrying `largecounter[d][t]` (sentinel tuples `(d, 0)` read `Counter[0] = 0`). -/
def create_sparse_bow (doc_labels : List String) (doc_tokens : List (List String))
    (type_dictionary : TypeDict) (doc_dictionary : TypeDict) :
    List ((Nat × Nat) × Nat) :=
  let temp_counter := _create_large_counter doc_labels doc_tokens type_dictionary
  let largecounter := temp_counter.map (fun p => (dictGet doc_dictionary p.1, p.2))
  let sparse_index := _create_sparse_index largecounter
  sparse_index.map (fun dt => (dt, counterGet (lcGet largecounter dt.1) dt.2))

/-- Collapsing the table per token id (`groupby(token_id).sum()` read at a
single token id `t`): the sum of the counts of all rows carrying `t`. -/
def collapsedCount (bow : List ((Nat × Nat) × Nat)) (t : Nat) : Nat :=
  ((bow.filter (fun row => row.1.2 == t)).map (fun row => row.2)).sum

/-- The doc-id-keyed counter dictionary built inside `create_sparse_bow`
(`largecounter = {doc_dictionary[key]: value for key, value in
temp_counter.items()}`). -/
def largecounterOf (labels : List String) (tokens : List (List String))
    (tdict ddict : TypeDict) : List (Nat × List (Nat × Nat)) :=
  (_create_large_counter labels tokens tdict).map (fun p => (dictGet ddict p.1, p.2))

/-- `remove_features` (preprocessing.py:679-718).  `stoplist_applied = [word
for word in set(id_types.keys()) if word in features]` (the key set is
embedded in first-occurrence order; the order is irrelevant to the result),
then `sparse_bow.drop([id_types[word] for word in stoplist_applied],
level="token_id")`.  In every pandas generation providing
`DataFrame.set_value` (pandas ≤ 0.25, which `create_sparse_bow` requires),
`MultiIndex._drop_from_level` computes a boolean mask
(`~isin(codes, level.get_indexer(labels))`) and has no raise path: rows whose
token id equals a dropped id are removed and dropped ids matching no row are
ignored silently. -/
def remove_features (sparse_bow : List ((Nat × Nat) × Nat)) (id_types : TypeDict)
    (features : List String) : List ((Nat × Nat) × Nat) :=
  let stoplist_applied :=
    (dedupFirst (id_types.map Prod.fst)).filter (fun word => features.contains word)
  let drop_ids := stoplist_applied.map (fun word => dictGet id_types word)
  sparse_bow.filter (fun row => !(drop_ids.contains row.1.2))

/-- The reversed-key lookup `type2id = {value: key for key, value in
id_types.items()}` used by `find_stopwords`/`find_hapax`: a later entry with
the same value overwrites an earlier one, so lookup finds the last matching
entry; `""` when the id is absent (Python would raise `KeyError`). -/
def type2idGet (id_types : TypeDict) (t : Nat) : String :=
  ((id_types.reverse.find? (fun p => p.2 == t)).map Prod.fst).getD ""

/-- `sparse_bow.groupby(token_id level).sum()`: the collapsed frame is
indexed by the sorted distinct token ids of the table, each carrying the sum
of its counts across all documents. -/
def collapseByTokenId (sparse_bow : List ((Nat × Nat) × Nat)) : List (Nat × Nat) :=
  (List.insertionSort (· ≤ ·) (dedupFirst (sparse_bow.map (fun row => row.1.2)))).map
    (fun t => (t, collapsedCount sparse_bow t))

/-- `find_hapax` (preprocessing.py:644-676): collapse per token id, keep the
rows whose aggregate count is exactly 1, translate back to token strings. -/
def find_hapax (sparse_bow : List ((Nat × Nat) × Nat)) (id_types : TypeDict) :
    List String :=
  ((collapseByTokenId sparse_bow).filter (fun p => p.2 == 1)).map
    (fun p => type2idGet id_types p.1)

/-- `save_sparse_bow` (preprocessing.py:570-605), as the list of lines
written to the `.mm` file: the fixed banner, the header
`num_docs num_types sum_counts` where `num_docs`/`num_types` are
`index.get_level_values(...).max()` and `sum_counts` is the count-column sum,
then `to_csv(f, sep=' ', header=None)` emitting one `doc_id token_id count`
line per row in the table's row order.  (On an empty table pandas' `.max()`
is NaN; the embedding folds `max` with base 0, and the theorems compare with
the specification only on nonempty tables.) -/
def save_sparse_bow (sparse_bow : List ((Nat × Nat) × Nat)) : List String :=
  let num_docs := (sparse_bow.map (fun row => row.1.1)).foldr max 0
  let num_types := (sparse_bow.map (fun row => row.1.2)).foldr max 0
  let sum_counts := (sparse_bow.map (fun row => row.2)).sum
  "%%MatrixMarket matrix coordinate real general"
    :: (toString num_docs ++ " " ++ toString num_types ++ " " ++ toString sum_counts)
    :: sparse_bow.map (fun row =>
        toString row.1.1 ++ " " ++ toString row.1.2 ++ " " ++ toString row.2)

/-- Modelled from the spec (section 4.6 Exporter): a fixed banner line, a
header `numDocs numTokenTypes totalCount` where `numDocs`/`numTokenTypes`
are the maxima of the doc-id and token-id index levels (not counts of
distinct values) and `totalCount` is the sum of all counts, then one
`doc_id token_id count` line per row in the table's row order. -/
def spec_exporter_lines (sparse_bow : List ((Nat × Nat) × Nat)) : List String :=
  "%%MatrixMarket matrix coordinate real general"
    :: (toString ((sparse_bow.map (fun row => row.1.1)).max?.getD 0) ++ " "
        ++ toString ((sparse_bow.map (fun row => row.1.2)).max?.getD 0) ++ " "
        ++ toString (sparse_bow.map (fun row => row.2)).sum)
    :: sparse_bow.map (fun row =>
        toString row.1.1 ++ " " ++ toString row.1.2 ++ " " ++ toString row.2)

/-- `\p{Letter}` on the ASCII fragment (`A-Z`, `a-z`).  The properties proved
about the default pattern (at least two letters per token, lowercasing) hold
for the full Unicode category for the same structural reasons. -/
def pyLetter (c : Char) : Bool := c.isAlpha

/-- `\p{Punctuation}` on the ASCII fragment: the ASCII characters in the
Unicode categories Pc, Pd, Ps, Pe, Po (`$ + < = > ^ | ~` and the backquote
are Symbols, not Punctuation). -/
def pyPunct (c : Char) : Bool :=
  c ∈ ['!', '"', '#', '%', '&', '\'', '(', ')', '*', ',', '-', '.', '/',
       ':', ';', '?', '@', '[', '\\', ']', '_', '\x7b', '\x7d']

/-- Scanner state for `finditer` of the default pattern
`\p{Letter}+\p{Punctuation}?\p{Letter}+`: outside a match, inside the first
letter run, after a single punctuation character, inside the second letter
run. -/
inductive ScanState where
  | out : ScanState
  | run1 : List Char → ScanState
  | pun : List Char → Char → ScanState
  | run2 : List Char → Char → List Char → ScanState

/-- One character of the left-to-right scan.  A greedy match of
`L+P?L+` is a maximal letter run (of length at least 2), extended by one
punctuation character and a further maximal letter run when both follow;
a failed candidate (single letter not followed by punctuation-then-letter)
emits nothing and scanning resumes at the following character, which is
never a letter in the branches that give up. -/
def scanStep (acc : List (List Char) × ScanState) (c : Char) :
    List (List Char) × ScanState :=
  match acc.2 with
  | .out => if pyLetter c then (acc.1, .run1 [c]) else (acc.1, .out)
  | .run1 r1 =>
    if pyLetter c then (acc.1, .run1 (r1 ++ [c]))
    else if pyPunct c then (acc.1, .pun r1 c)
    else (if 2 ≤ r1.length then acc.1 ++ [r1] else acc.1, .out)
  | .pun r1 p =>
    if pyLetter c then (acc.1, .run2 r1 p [c])
    else (if 2 ≤ r1.length then acc.1 ++ [r1] else acc.1, .out)
  | .run2 r1 p r2 =>
    if pyLetter c then (acc.1, .run2 r1 p (r2 ++ [c]))
    else (acc.1 ++ [r1 ++ p :: r2], .out)

/-- End-of-input: emit any pending valid match. -/
def scanFlush (acc : List (List Char) × ScanState) : List (List Char) :=
  match acc.2 with
  | .out => acc.1
  | .run1 r1 => if 2 ≤ r1.length then acc.1 ++ [r1] else acc.1
  | .pun r1 _ => if 2 ≤ r1.length then acc.1 ++ [r1] else acc.1
  | .run2 r1 p r2 => acc.1 ++ [r1 ++ p :: r2]

/-- All matches of the default pattern, in order. -/
def findallDefault (l : List Char) : List (List Char) :=
  scanFlush (l.foldl scanStep ([], .out))

/-- `\w` on the ASCII fragment (letters, digits, underscore). -/
def pyWord (c : Char) : Bool := c.isAlphanum || c == '_'

/-- One character of the `\w+` scan used in `simple` mode. -/
def wordStep (acc : List (List Char) × Option (List Char)) (c : Char) :
    List (List Char) × Option (List Char) :=
  match acc.2 with
  | none => if pyWord c then (acc.1, some [c]) else (acc.1, none)
  | some r => if pyWord c then (acc.1, some (r ++ [c])) else (acc.1 ++ [r], none)

/-- All matches of `\w+`, in order. -/
def findallSimple (l : List Char) : List (List Char) :=
  match l.foldl wordStep ([], none) with
  | (ts, none) => ts
  | (ts, some r) => ts ++ [r]

/-- `tokenize` (preprocessing.py:148-191): optional lowercasing of the whole
text, then `regex.sub("\.", "")`, then four dash characters replaced by a
space, then `finditer` with the default pattern (or `\w+` in `simple` mode;
the `expression` parameter is the default pattern throughout, which is all
the specification exercises). -/
def tokenize (doc_txt : List Char) (lower : Bool) (simple : Bool) :
    List (List Char) :=
  let doc1 := if lower then doc_txt.map Char.toLower else doc_txt
  let doc2 := doc1.filter (fun c => !(c == '.'))
  let doc3 := doc2.map (fun c =>
    if c = '‒' ∨ c = '–' ∨ c = '—' ∨ c = '―' then ' ' else c)
  if simple then findallSimple doc3 else findallDefault doc3

/-- `tokenize` over `String`, yielding `String` tokens. -/
def tokenizeStr (doc_txt : String) (lower : Bool) (simple : Bool) : List String :=
  (tokenize doc_txt.toList lower simple).map (fun t => String.mk t)

/-- Scanner-state invariant: the letter-run buffers are nonempty and every
buffered character satisfies `Q`. -/
def stOK (Q : Char → Prop) : ScanState → Prop
  | .out => True
  | .run1 r1 => r1 ≠ [] ∧ ∀ c ∈ r1, Q c
  | .pun r1 p => (r1 ≠ [] ∧ ∀ c ∈ r1, Q c) ∧ Q p
  | .run2 r1 p r2 => ((r1 ≠ [] ∧ ∀ c ∈ r1, Q c) ∧ Q p) ∧ (r2 ≠ [] ∧ ∀ c ∈ r2, Q c)

/-- Emitted-token invariant: every token has at least two characters and
every character satisfies `Q`. -/
def tokOK (Q : Char → Prop) (ts : List (List Char)) : Prop :=
  ∀ t ∈ ts, 2 ≤ t.length ∧ ∀ c ∈ t, Q c

/-- Python `round` (banker's rounding) on a rational. -/
def pyRound (q : ℚ) : ℤ :=
  if q - ⌊q⌋ < 1/2 then ⌊q⌋
  else if 1/2 < q - ⌊q⌋ then ⌊q⌋ + 1
  else if 2 ∣ ⌊q⌋ then ⌊q⌋ else ⌊q⌋ + 1

/-- The tolerance conversion at the head of `segment_fuzzy`
(preprocessing.py:280-281): a fractional tolerance in (0, 1) becomes
`round(segment_size * tolerance)` — an integer.  (The source computes this
in floating point; on the inputs the specification exercises, the float and
the exact rational round agree.) -/
def convertFracTolerance (segment_size : Nat) (tolerance : ℚ) : ℤ :=
  pyRound ((segment_size : ℚ) * tolerance)

/-- One loop iteration of `segment_fuzzy` (preprocessing.py:288-307) after
the chunk has been drawn: append the chunk, and when the running size
reaches the target either split the chunk (keep `chunk[:-too_long]`, carry
`chunk[-too_long:]`), evict it whole (`current_segment.pop()` becomes the
carry), or keep it, yielding the segment in each of the three cases;
`recur` continues the loop on the remaining fuel. -/
def segmentBody {α : Type} (segment_size : Nat) (tolerance : ℤ)
    (recur : List (List α) → Option (List α) → List (List α) → Nat →
      Option (List (List (List α))))
    (chunk : List α) (doc' : List (List α)) (current_segment : List (List α))
    (current_size : Nat) : Option (List (List (List α))) :=
  let current_segment1 := current_segment ++ [chunk]
  let current_size1 := current_size + chunk.length
  if segment_size ≤ current_size1 then
    let too_long : ℤ := (current_size1 : ℤ) - (segment_size : ℤ)
    let too_short : ℤ := (segment_size : ℤ) - (current_size : ℤ)
    if 0 ≤ tolerance ∧ tolerance < min too_long too_short then
      -- Python `chunk[:-k]` / `chunk[-k:]` with k = too_long ≥ 0
      let k := too_long.toNat
      let chunk_part0 := if k = 0 then [] else chunk.take (chunk.length - k)
      let carry1 := if k = 0 then chunk else chunk.drop (chunk.length - k)
      (recur doc' (some carry1) [] 0).map
        (fun segs => (current_segment1.dropLast ++ [chunk_part0]) :: segs)
    else if too_short ≤ too_long then
      (recur doc' (some chunk) [] 0).map
        (fun segs => current_segment1.dropLast :: segs)
    else
      (recur doc' none [] 0).map (fun segs => current_segment1 :: segs)
  else
    recur doc' none current_segment1 current_size1

/-- The `while True` loop of `segment_fuzzy`, with explicit fuel.  `chunk =
list(carry if carry else next(doc_iter))` draws a nonempty carry first,
otherwise the next document chunk; `StopIteration` yields any nonempty
accumulated segment.  `none` means the budget was exhausted before the
generator finished (the Python loop does not terminate on every input; see
the negative-tolerance theorems). -/
def segmentLoop {α : Type} (segment_size : Nat) (tolerance : ℤ) :
    Nat → List (List α) → Option (List α) → List (List α) → Nat →
      Option (List (List (List α)))
  | 0, _, _, _, _ => none
  | fuel + 1, doc, carry, current_segment, current_size =>
    match carry, doc with
    | some (a :: rest), _ =>
      segmentBody segment_size tolerance (segmentLoop segment_size tolerance fuel)
        (a :: rest) doc current_segment current_size
    | _, [] => some (if current_segment.isEmpty then [] else [current_segment])
    | _, chunk :: doc' =>
      segmentBody segment_size tolerance (segmentLoop segment_size tolerance fuel)
        chunk doc' current_segment current_size

/-- Loop measure: each iteration strictly decreases it whenever
`0 ≤ tolerance < segment_size` (see `segmentLoop_isSome`). -/
def segPhi {α : Type} (doc : List (List α)) (carry : Option (List α))
    (cur : List (List α)) : Nat :=
  2 * (doc.map List.length).sum + doc.length
    + (match carry with
       | some c => 2 * c.length + 1
       | none => 0)
    + cur.flatten.length

/-- Fuel budget used by `segment_fuzzy`: sufficient for every terminating
execution (proved for `0 ≤ tolerance < segment_size`). -/
def segmentFuel {α : Type} (document : List (List α)) : Nat :=
  segPhi document none [] + 1

/-- `segment_fuzzy` (preprocessing.py:251-313), for the post-conversion
tolerance: a caller-supplied fractional tolerance in (0, 1) is first turned
into the integer `round(segment_size * tolerance)`
(`convertFracTolerance`); the loop itself compares the integer
`min(too_long, too_short)` against the tolerance, and every tolerance the
specification exercises is integral at this point.  The loop runs on the
standard fuel budget. -/
def segment_fuzzy {α : Type} (document : List (List α)) (segment_size : Nat)
    (tolerance : ℤ) : Option (List (List (List α))) :=
  segmentLoop segment_size tolerance (segmentFuel document) document none [] 0

theorem mem_dedupFirstAux {α : Type} [DecidableEq α] (seen : List α) (l : List α) (a : α) :
    a ∈ dedupFirstAux seen l ↔ a ∈ l ∧ a ∉ seen := by
  induction l generalizing seen with
  | nil => simp [dedupFirstAux]
  | cons b l ih =>
    by_cases hb : b ∈ seen
    · simp only [dedupFirstAux, if_pos hb, ih, List.mem_cons]
      constructor
      · rintro ⟨h1, h2⟩; exact ⟨Or.inr h1, h2⟩
      · rintro ⟨rfl | h1, h2⟩
        · exact absurd hb h2
        · exact ⟨h1, h2⟩
    · simp only [dedupFirstAux, if_neg hb, List.mem_cons, ih, not_or]
      by_cases hab : a = b
      · subst hab; simp [hb]
      · simp [hab]

theorem mem_dedupFirst {α : Type} [DecidableEq α] (l : List α) (a : α) :
    a ∈ dedupFirst l ↔ a ∈ l := by
  simp [dedupFirst, mem_dedupFirstAux]

theorem nodup_dedupFirstAux {α : Type} [DecidableEq α] (seen : List α) (l : List α) :
    (dedupFirstAux seen l).Nodup := by
  induction l generalizing seen with
  | nil => simp [dedupFirstAux]
  | cons b l ih =>
    by_cases hb : b ∈ seen
    · simpa [dedupFirstAux, if_pos hb] using ih seen
    · simp only [dedupFirstAux, if_neg hb]
      refine List.Nodup.cons ?_ (ih (b :: seen))
      intro hmem
      exact ((mem_dedupFirstAux _ _ _).1 hmem).2 (List.mem_cons_self _ _)

theorem nodup_dedupFirst {α : Type} [DecidableEq α] (l : List α) :
    (dedupFirst l).Nodup := nodup_dedupFirstAux [] l

theorem create_dictionary_keys (tokens : List String) :
    (create_dictionary tokens).map Prod.fst = dedupFirst tokens := by
  simp only [create_dictionary]
  rw [List.map_map]
  have : (Prod.fst ∘ fun p : Nat × String => (p.2, p.1 + 1)) = Prod.snd := rfl
  rw [this, List.enum_map_snd]

theorem create_dictionary_values (tokens : List String) :
    (create_dictionary tokens).map Prod.snd
      = List.range' 1 (dedupFirst tokens).length := by
  simp only [create_dictionary]
  rw [List.map_map]
  have : (Prod.snd ∘ fun p : Nat × String => (p.2, p.1 + 1))
      = (fun p : Nat × String => p.1 + 1) := rfl
  rw [this]
  have h2 : (fun p : Nat × String => p.1 + 1)
      = (fun n => n + 1) ∘ Prod.fst := rfl
  rw [h2, ← List.map_map, List.enum_map_fst, List.range'_eq_map_range]
  exact (List.map_congr_left (fun a _ => Nat.add_comm 1 a)).symm

theorem dedupFirst_length_eq_dedup_length {α : Type} [DecidableEq α] (l : List α) :
    (dedupFirst l).length = l.dedup.length := by
  refine List.Perm.length_eq ?_
  refine (List.perm_ext_iff_of_nodup (nodup_dedupFirst l) l.nodup_dedup).2 ?_
  intro a
  rw [mem_dedupFirst, List.mem_dedup]

/-- C5: `create_dictionary`, on a flat token list, returns a dictionary whose
keys are exactly the distinct tokens (one entry each), whose values are a
permutation of `1..N` for `N` the number of distinct tokens, and whose values
are pairwise distinct (the mapping is injective); nested list-of-lists input
is flattened to its token-level union before deduplication. -/
theorem create_dictionary_spec :
    ∀ (tokens : List String) (nested : List (List String)),
      ((create_dictionary tokens).map Prod.fst).Nodup
      ∧ (∀ w, w ∈ (create_dictionary tokens).map Prod.fst ↔ w ∈ tokens)
      ∧ ((create_dictionary tokens).map Prod.snd).Perm
          (List.range' 1 tokens.dedup.length)
      ∧ ((create_dictionary tokens).map Prod.snd).Nodup
      ∧ create_dictionary_nested nested = create_dictionary nested.flatten := by
  intro tokens nested
  have hkeys := create_dictionary_keys tokens
  have hvals := create_dictionary_values tokens
  refine ⟨?_, ?_, ?_, ?_, rfl⟩
  · rw [hkeys]; exact nodup_dedupFirst tokens
  · intro w; rw [hkeys, mem_dedupFirst]
  · rw [hvals, dedupFirst_length_eq_dedup_length]
  · rw [hvals]; exact (List.nodup_range' _ _)

theorem find?_beq_self {α : Type} [DecidableEq α] (l : List α) (t : α) :
    l.find? (fun k => k == t) = if t ∈ l then some t else none := by
  induction l with
  | nil => simp
  | cons a l ih =>
    by_cases h : a = t
    · subst h
      rw [List.find?_cons_of_pos _ (by simp)]
      simp
    · rw [List.find?_cons_of_neg _ (by simp [h]), ih]
      simp [List.mem_cons, h, Ne.symm h]

theorem counterGet_pyCounter (L : List Nat) (t : Nat) :
    counterGet (pyCounter L) t = L.count t := by
  unfold counterGet pyCounter
  rw [List.find?_map]
  have hcomp : ((fun p : Nat × Nat => p.1 == t) ∘ fun k => (k, L.count k))
      = fun k => k == t := rfl
  rw [hcomp, find?_beq_self]
  by_cases h : t ∈ dedupFirst L
  · simp [h]
  · have h2 : t ∉ L := fun hl => h ((mem_dedupFirst L t).2 hl)
    simp [h, List.count_eq_zero.2 h2]

theorem lcGet_cons_self (k : Nat) (c : List (Nat × Nat)) (rest : List (Nat × List (Nat × Nat))) :
    lcGet ((k, c) :: rest) k = c := by
  unfold lcGet
  rw [List.find?_cons_of_pos _ (by simp)]
  rfl

theorem lcGet_cons_ne (k k' : Nat) (h : k' ≠ k) (c : List (Nat × Nat))
    (rest : List (Nat × List (Nat × Nat))) :
    lcGet ((k, c) :: rest) k' = lcGet rest k' := by
  unfold lcGet
  rw [List.find?_cons_of_neg _ (by simp [Ne.symm h])]

theorem lcGet_of_mem {lc : List (Nat × List (Nat × Nat))} {k : Nat} {c : List (Nat × Nat)}
    (hmem : (k, c) ∈ lc) (hnd : (lc.map Prod.fst).Nodup) : lcGet lc k = c := by
  induction lc with
  | nil => cases hmem
  | cons p rest ih =>
    obtain ⟨k', c'⟩ := p
    rw [List.map_cons, List.nodup_cons] at hnd
    rcases List.mem_cons.1 hmem with he | hm
    · obtain ⟨rfl, rfl⟩ := Prod.mk.injEq .. ▸ he
      exact lcGet_cons_self ..
    · have hk : k ≠ k' := by
        rintro rfl
        exact hnd.1 (List.mem_map.2 ⟨(k, c), hm, rfl⟩)
      rw [lcGet_cons_ne _ _ hk]
      exact ih hm hnd.2

theorem collapsedCount_append (a b : List ((Nat × Nat) × Nat)) (t : Nat) :
    collapsedCount (a ++ b) t = collapsedCount a t + collapsedCount b t := by
  simp [collapsedCount, List.filter_append]

theorem collapsedCount_flatMap {α : Type} (l : List α) (f : α → List ((Nat × Nat) × Nat))
    (t : Nat) :
    collapsedCount (l.flatMap f) t = (l.map (fun a => collapsedCount (f a) t)).sum := by
  induction l with
  | nil => simp [collapsedCount]
  | cons a l ih => simp [List.flatMap_cons, collapsedCount_append, ih]

theorem collapsedCount_keyRows (k tid : Nat) (us : List Nat) (g : Nat → Nat)
    (h : us.Nodup) :
    collapsedCount (us.map (fun u => ((k, u), g u))) tid
      = if tid ∈ us then g tid else 0 := by
  induction us with
  | nil => simp [collapsedCount]
  | cons u us ih =>
    rw [List.nodup_cons] at h
    by_cases he : tid = u
    · subst he
      simp only [List.map_cons, collapsedCount, List.filter_cons, List.mem_cons]
      have hrest : collapsedCount (us.map (fun u => ((k, u), g u))) tid = 0 := by
        rw [ih h.2, if_neg h.1]
      simp only [collapsedCount] at hrest
      simp [hrest]
    · simp only [List.map_cons, collapsedCount, List.filter_cons, List.mem_cons]
      have := ih h.2
      simp only [collapsedCount] at this
      simp only [he, false_or]
      have hne2 : ¬((u == tid) = true) := by
        simp only [beq_iff_eq]
        exact fun hh => he hh.symm
      rw [if_neg hne2]
      exact this

/-- The collapsed count of the rows a single document contributes to the
table equals the multiplicity of the token id in that document's id list. -/
theorem collapsedCount_docRows (k tid : Nat) (L : List Nat) :
    collapsedCount
      ((if (pyCounter L).isEmpty then [((k, 0), counterGet (pyCounter L) 0)] else [])
        ++ (pyCounter L).map (fun p => ((k, p.1), counterGet (pyCounter L) p.1)))
      tid = L.count tid := by
  rw [collapsedCount_append]
  rcases L with _ | ⟨a, L'⟩
  · simp only [pyCounter, dedupFirst, dedupFirstAux, collapsedCount, counterGet,
      List.map_nil, List.isEmpty_nil, if_true, List.filter_nil, List.append_nil,
      List.count_nil, List.find?_nil, Option.map_none, Option.getD_none]
    simp [List.filter_cons]
    split <;> simp
  · have hne : (pyCounter (a :: L')).isEmpty = false := by
      have : a ∈ dedupFirst (a :: L') := (mem_dedupFirst _ a).2 (List.mem_cons_self a L')
      rcases hd : dedupFirst (a :: L') with _ | ⟨b, r⟩
      · rw [hd] at this; cases this
      · simp [pyCounter, hd]
    rw [hne]
    simp only [if_neg Bool.false_ne_true, collapsedCount_append]
    have hmap : (pyCounter (a :: L')).map
        (fun p => ((k, p.1), counterGet (pyCounter (a :: L')) p.1))
        = (dedupFirst (a :: L')).map
            (fun u => ((k, u), counterGet (pyCounter (a :: L')) u)) := by
      unfold pyCounter
      rw [List.map_map]
      rfl
    rw [hmap]
    have := collapsedCount_keyRows k tid (dedupFirst (a :: L'))
      (fun u => counterGet (pyCounter (a :: L')) u) (nodup_dedupFirst _)
    rw [this]
    by_cases hmem : tid ∈ dedupFirst (a :: L')
    · simp [collapsedCount, hmem, counterGet_pyCounter]
    · have h2 : tid ∉ (a :: L') := fun hl => hmem ((mem_dedupFirst _ tid).2 hl)
      simp [collapsedCount, hmem, List.count_eq_zero.2 h2]

/-- The table rows, grouped by the document ids `1..len(largecounter)` that
`_create_sparse_index` iterates. -/
theorem create_sparse_bow_eq (labels : List String) (tokens : List (List String))
    (tdict ddict : TypeDict) :
    create_sparse_bow labels tokens tdict ddict
      = (List.range' 1 ((labels.zip tokens).length)).flatMap (fun k =>
          (if (lcGet (largecounterOf labels tokens tdict ddict) k).isEmpty then
            [((k, 0), counterGet (lcGet (largecounterOf labels tokens tdict ddict) k) 0)]
          else [])
            ++ (lcGet (largecounterOf labels tokens tdict ddict) k).map
                (fun p => ((k, p.1),
                  counterGet (lcGet (largecounterOf labels tokens tdict ddict) k) p.1))) := by
  simp only [create_sparse_bow, _create_sparse_index, largecounterOf]
  rw [List.map_flatMap]
  have hlen : ((_create_large_counter labels tokens tdict).map
      (fun p => (dictGet ddict p.1, p.2))).length = (labels.zip tokens).length := by
    simp [_create_large_counter]
  rw [hlen]
  congr 1
  funext k
  rw [List.map_append, List.map_map]
  congr 1
  by_cases hc : (lcGet ((_create_large_counter labels tokens tdict).map
      (fun p => (dictGet ddict p.1, p.2))) k).isEmpty <;> simp [hc]

theorem largecounterOf_fst (labels : List String) (tokens : List (List String))
    (td dd : TypeDict) (hlen : tokens.length = labels.length) :
    (largecounterOf labels tokens td dd).map Prod.fst = labels.map (dictGet dd) := by
  simp only [largecounterOf, _create_large_counter, List.map_map]
  have hc : (Prod.fst ∘ (fun p : String × List (Nat × Nat) => (dictGet dd p.1, p.2)) ∘
      fun p : String × List String => (p.1, pyCounter (List.map (dictGet td) p.2)))
      = dictGet dd ∘ Prod.fst := rfl
  rw [hc, ← List.map_map, List.map_fst_zip _ _ (le_of_eq hlen.symm)]

theorem sum_lcGet (lc : List (Nat × List (Nat × Nat))) (F : Nat → List (Nat × Nat) → Nat)
    (hnd : (lc.map Prod.fst).Nodup) :
    ((lc.map Prod.fst).map (fun k => F k (lcGet lc k))).sum
      = (lc.map (fun p => F p.1 p.2)).sum := by
  induction lc with
  | nil => simp
  | cons p rest ih =>
    obtain ⟨k, c⟩ := p
    rw [List.map_cons] at hnd
    rw [List.nodup_cons] at hnd
    rw [List.map_cons, List.map_cons, List.map_cons, List.sum_cons, List.sum_cons]
    congr 1
    · rw [lcGet_cons_self]
    · have hcong : (rest.map Prod.fst).map (fun a => F a (lcGet ((k, c) :: rest) a))
          = (rest.map Prod.fst).map (fun a => F a (lcGet rest a)) := by
        apply List.map_congr_left
        intro a ha
        rw [lcGet_cons_ne _ _ (fun he => hnd.1 (by rwa [he] at ha))]
      rw [hcong, ih hnd.2]

theorem count_map_eq_count_of_inj (l : List String) (f : String → Nat) (w : String)
    (h : ∀ v ∈ l, f v = f w → v = w) :
    (l.map f).count (f w) = l.count w := by
  induction l with
  | nil => simp
  | cons v l ih =>
    rw [List.map_cons, List.count_cons, List.count_cons,
      ih (fun u hu hf => h u (List.mem_cons_of_mem _ hu) hf)]
    congr 1
    by_cases hv : v = w
    · subst hv; simp
    · have hne : f w ≠ f v := fun he => hv (h v (List.mem_cons_self _ _) he.symm)
      have h1 : ¬f v = f w := fun hh => hne hh.symm
      have h4 : ¬w = v := fun hh => hv hh.symm
      simp [h1, hne, hv, h4]

/-- C1: for document labels, per-document token lists, a Type Dictionary
covering the tokens (injective, per the data model) and a Document Dictionary
mapping the labels onto `1..N` (dense from 1, per the data model), collapsing
the sparse table per token id recovers each token's occurrence count in the
original token lists; in particular for labels `["d1"]` and tokens
`[["a","b","b"]]` the collapsed sums are 1 for `"a"` and 2 for `"b"`. -/
theorem create_sparse_bow_roundtrip :
    (∀ (doc_labels : List String) (doc_tokens : List (List String))
        (type_dictionary doc_dictionary : TypeDict),
        doc_tokens.length = doc_labels.length →
        (doc_labels.map (dictGet doc_dictionary)).Perm
          (List.range' 1 doc_labels.length) →
        (∀ v ∈ doc_tokens.flatten, hasKey type_dictionary v = true) →
        (∀ v ∈ doc_tokens.flatten, ∀ w ∈ doc_tokens.flatten,
          dictGet type_dictionary v = dictGet type_dictionary w → v = w) →
        ∀ w ∈ doc_tokens.flatten,
          collapsedCount
              (create_sparse_bow doc_labels doc_tokens type_dictionary doc_dictionary)
              (dictGet type_dictionary w)
            = doc_tokens.flatten.count w)
    ∧ collapsedCount (create_sparse_bow ["d1"] [["a", "b", "b"]]
          (create_dictionary_nested [["a", "b", "b"]]) (create_dictionary ["d1"]))
        (dictGet (create_dictionary_nested [["a", "b", "b"]]) "a") = 1
    ∧ collapsedCount (create_sparse_bow ["d1"] [["a", "b", "b"]]
          (create_dictionary_nested [["a", "b", "b"]]) (create_dictionary ["d1"]))
        (dictGet (create_dictionary_nested [["a", "b", "b"]]) "b") = 2 := by
  refine ⟨?_, by decide, by decide⟩
  intro labels tokens td dd hlen hperm _hcov hinj w hw
  have hLfst : (largecounterOf labels tokens td dd).map Prod.fst
      = labels.map (dictGet dd) := largecounterOf_fst labels tokens td dd hlen
  have hnd : ((largecounterOf labels tokens td dd).map Prod.fst).Nodup := by
    rw [hLfst]
    exact hperm.nodup_iff.2 (List.nodup_range' 1 labels.length)
  have hzlen : (labels.zip tokens).length = labels.length := by
    rw [List.length_zip, hlen, Nat.min_self]
  calc collapsedCount (create_sparse_bow labels tokens td dd) (dictGet td w)
      = ((List.range' 1 ((labels.zip tokens).length)).map (fun k =>
          collapsedCount
            ((if (lcGet (largecounterOf labels tokens td dd) k).isEmpty then
                [((k, 0), counterGet (lcGet (largecounterOf labels tokens td dd) k) 0)]
              else [])
              ++ (lcGet (largecounterOf labels tokens td dd) k).map
                  (fun p => ((k, p.1),
                    counterGet (lcGet (largecounterOf labels tokens td dd) k) p.1)))
            (dictGet td w))).sum := by
        rw [create_sparse_bow_eq, collapsedCount_flatMap]
    _ = (((largecounterOf labels tokens td dd).map Prod.fst).map (fun k =>
          collapsedCount
            ((if (lcGet (largecounterOf labels tokens td dd) k).isEmpty then
                [((k, 0), counterGet (lcGet (largecounterOf labels tokens td dd) k) 0)]
              else [])
              ++ (lcGet (largecounterOf labels tokens td dd) k).map
                  (fun p => ((k, p.1),
                    counterGet (lcGet (largecounterOf labels tokens td dd) k) p.1)))
            (dictGet td w))).sum := by
        apply List.Perm.sum_eq
        apply List.Perm.map
        rw [hzlen, hLfst]
        exact hperm.symm
    _ = ((largecounterOf labels tokens td dd).map (fun p =>
          collapsedCount
            ((if p.2.isEmpty then [((p.1, 0), counterGet p.2 0)] else [])
              ++ p.2.map (fun q => ((p.1, q.1), counterGet p.2 q.1)))
            (dictGet td w))).sum :=
        sum_lcGet (largecounterOf labels tokens td dd)
          (fun k c =>
            collapsedCount
              ((if c.isEmpty then [((k, 0), counterGet c 0)] else [])
                ++ c.map (fun q => ((k, q.1), counterGet c q.1)))
              (dictGet td w))
          hnd
    _ = ((labels.zip tokens).map
          (fun p => (p.2.map (dictGet td)).count (dictGet td w))).sum := by
        simp only [largecounterOf, _create_large_counter, List.map_map]
        congr 1
        apply List.map_congr_left
        intro p _
        simp only [Function.comp]
        exact collapsedCount_docRows (dictGet dd p.1) (dictGet td w)
          (p.2.map (dictGet td))
    _ = (tokens.map
          (fun tl => (tl.map (dictGet td)).count (dictGet td w))).sum := by
        have hc : (fun p : String × List String =>
              (p.2.map (dictGet td)).count (dictGet td w))
            = (fun tl : List String => (tl.map (dictGet td)).count (dictGet td w)) ∘
              Prod.snd := rfl
        rw [hc, ← List.map_map, List.map_snd_zip _ _ (le_of_eq hlen)]
    _ = tokens.flatten.count w := by
        have e := List.count_flatten (dictGet td w)
          (tokens.map (fun tl => tl.map (dictGet td)))
        rw [List.map_map] at e
        have hc : ((List.count (dictGet td w)) ∘ fun tl : List String =>
              tl.map (dictGet td))
            = (fun tl : List String => (tl.map (dictGet td)).count (dictGet td w)) := rfl
        rw [hc] at e
        rw [← e, ← List.map_flatten]
        exact count_map_eq_count_of_inj _ _ _ (fun v hv => hinj v hv w hw)

theorem dictGet_cons_self (w : String) (v : Nat) (rest : TypeDict) :
    dictGet ((w, v) :: rest) w = v := by
  unfold dictGet
  rw [List.find?_cons_of_pos _ (by simp)]
  rfl

theorem dictGet_cons_ne (w w' : String) (h : w' ≠ w) (v : Nat) (rest : TypeDict) :
    dictGet ((w, v) :: rest) w' = dictGet rest w' := by
  unfold dictGet
  rw [List.find?_cons_of_neg _ (by simp [Ne.symm h])]

theorem dictGet_of_mem {d : TypeDict} {w : String} {v : Nat}
    (hmem : (w, v) ∈ d) (hnd : (d.map Prod.fst).Nodup) : dictGet d w = v := by
  induction d with
  | nil => cases hmem
  | cons p rest ih =>
    obtain ⟨w', v'⟩ := p
    rw [List.map_cons, List.nodup_cons] at hnd
    rcases List.mem_cons.1 hmem with he | hm
    · obtain ⟨rfl, rfl⟩ := Prod.mk.injEq .. ▸ he
      exact dictGet_cons_self ..
    · have hk : w ≠ w' := by
        rintro rfl
        exact hnd.1 (List.mem_map.2 ⟨(w, v), hm, rfl⟩)
      rw [dictGet_cons_ne _ _ hk]
      exact ih hm hnd.2

theorem mem_of_key {d : TypeDict} {w : String} (h : w ∈ d.map Prod.fst) :
    (w, dictGet d w) ∈ d := by
  obtain ⟨e, he, he1⟩ := List.mem_map.1 h
  have hsome : (d.find? (fun p => p.1 == w)).isSome :=
    List.find?_isSome.2 ⟨e, he, by simp [he1]⟩
  obtain ⟨e', he'⟩ := Option.isSome_iff_exists.1 hsome
  have hpred := List.find?_some he'
  have hmem' : e' ∈ d := List.mem_of_find?_eq_some he'
  have he'1 : e'.1 = w := by simpa using hpred
  have hget : dictGet d w = e'.2 := by
    unfold dictGet
    rw [he']
    rfl
  rw [hget, ← he'1]
  exact hmem'

theorem hasKey_iff_mem (d : TypeDict) (w : String) :
    hasKey d w = true ↔ w ∈ d.map Prod.fst := by
  unfold hasKey
  rw [List.find?_isSome]
  constructor
  · rintro ⟨e, he, hp⟩
    exact List.mem_map.2 ⟨e, he, by simpa using hp⟩
  · rintro h
    obtain ⟨e, he, he1⟩ := List.mem_map.1 h
    exact ⟨e, he, by simp [he1]⟩

theorem contains_iff {α : Type} [BEq α] [LawfulBEq α] (l : List α) (a : α) :
    l.contains a = true ↔ a ∈ l := by
  rw [List.contains_iff_exists_mem_beq]
  constructor
  · rintro ⟨b, hb, hbeq⟩
    rw [eq_of_beq hbeq]
    exact hb
  · intro h
    exact ⟨a, h, by simp⟩

/-- A row's token id is a dropped id iff some feature string is an entry of
the dictionary at that id. -/
theorem mem_drop_ids_iff (d : TypeDict) (features : List String) (tid : Nat)
    (hnd : (d.map Prod.fst).Nodup) :
    (((dedupFirst (d.map Prod.fst)).filter (fun word => features.contains word)).map
        (fun word => dictGet d word)).contains tid = true
      ↔ ∃ w, w ∈ features ∧ (w, tid) ∈ d := by
  rw [contains_iff]
  constructor
  · intro hmem
    obtain ⟨word, hword, hw⟩ := List.mem_map.1 hmem
    rw [List.mem_filter] at hword
    have hkey : word ∈ d.map Prod.fst := (mem_dedupFirst _ _).1 hword.1
    have hfeat : word ∈ features := (contains_iff _ _).1 hword.2
    refine ⟨word, hfeat, ?_⟩
    rw [← hw]
    exact mem_of_key hkey
  · rintro ⟨w, hwf, hwd⟩
    have hkey : w ∈ d.map Prod.fst := List.mem_map.2 ⟨(w, tid), hwd, rfl⟩
    refine List.mem_map.2 ⟨w, ?_, ?_⟩
    · rw [List.mem_filter]
      exact ⟨(mem_dedupFirst _ _).2 hkey, (contains_iff _ _).2 hwf⟩
    · exact dictGet_of_mem hwd hnd

theorem create_sparse_bow_roundtrip_witness :
    collapsedCount (create_sparse_bow ["d1"] [["a", "b", "b"]]
        (create_dictionary_nested [["a", "b", "b"]]) (create_dictionary ["d1"]))
      (dictGet (create_dictionary_nested [["a", "b", "b"]]) "b")
      = ([["a", "b", "b"]].flatten).count "b" :=
  create_sparse_bow_roundtrip.1 ["d1"] [["a", "b", "b"]]
    (create_dictionary_nested [["a", "b", "b"]]) (create_dictionary ["d1"])
    (by decide) (by decide) (by decide) (by decide) "b" (by decide)

/-- C2 (amended): the invariant holds at construction time —
`create_sparse_bow` gives every document id `1..N` at least one row, and a
document whose token list is empty is represented by the sentinel row
`(doc_id, 0)` with count 0.  `remove_features` does not preserve the
invariant (see the counterexample). -/
theorem sparse_bow_document_rows :
    ∀ (doc_labels : List String) (doc_tokens : List (List String))
      (type_dictionary doc_dictionary : TypeDict),
      doc_tokens.length = doc_labels.length →
      (doc_labels.map (dictGet doc_dictionary)).Perm
        (List.range' 1 doc_labels.length) →
      (∀ k ∈ List.range' 1 doc_labels.length,
        ∃ t c, ((k, t), c) ∈ create_sparse_bow doc_labels doc_tokens
          type_dictionary doc_dictionary)
      ∧ (∀ p ∈ doc_labels.zip doc_tokens, p.2 = [] →
          ((dictGet doc_dictionary p.1, 0), 0)
            ∈ create_sparse_bow doc_labels doc_tokens type_dictionary doc_dictionary) := by
  intro labels tokens td dd hlen hperm
  have hzlen : (labels.zip tokens).length = labels.length := by
    rw [List.length_zip, hlen, Nat.min_self]
  have hnd : ((largecounterOf labels tokens td dd).map Prod.fst).Nodup := by
    rw [largecounterOf_fst labels tokens td dd hlen]
    exact hperm.nodup_iff.2 (List.nodup_range' 1 labels.length)
  constructor
  · intro k hk
    rw [create_sparse_bow_eq]
    rcases hc : lcGet (largecounterOf labels tokens td dd) k with _ | ⟨q, rest⟩
    · refine ⟨0, 0, List.mem_flatMap.2 ⟨k, by rwa [hzlen], ?_⟩⟩
      rw [hc]
      simp [counterGet]
    · refine ⟨q.1, counterGet (lcGet (largecounterOf labels tokens td dd) k) q.1,
        List.mem_flatMap.2 ⟨k, by rwa [hzlen], ?_⟩⟩
      refine List.mem_append_right _ ?_
      exact List.mem_map.2 ⟨q, by rw [hc]; exact List.mem_cons_self _ _, rfl⟩
  · intro p hp hpe
    obtain ⟨lab, tl⟩ := p
    simp only at hpe
    subst hpe
    have hmemL : (dictGet dd lab, ([] : List (Nat × Nat)))
        ∈ largecounterOf labels tokens td dd := by
      unfold largecounterOf _create_large_counter
      exact List.mem_map.2 ⟨(lab, pyCounter (([] : List String).map (dictGet td))),
        List.mem_map.2 ⟨(lab, []), hp, rfl⟩, rfl⟩
    have hcget : lcGet (largecounterOf labels tokens td dd) (dictGet dd lab) = [] :=
      lcGet_of_mem hmemL hnd
    have hk : dictGet dd lab ∈ List.range' 1 (labels.zip tokens).length := by
      rw [hzlen]
      refine hperm.mem_iff.1 ?_
      exact List.mem_map.2 ⟨lab, (List.of_mem_zip hp).1, rfl⟩
    rw [create_sparse_bow_eq]
    refine List.mem_flatMap.2 ⟨dictGet dd lab, hk, ?_⟩
    rw [hcget]
    simp [counterGet]

theorem sparse_bow_document_rows_witness :
    ((2, 0), 0) ∈ create_sparse_bow ["d1", "d2"] [["a"], []]
        (create_dictionary ["a"]) (create_dictionary ["d1", "d2"])
    ∧ ∃ t c, ((1, t), c) ∈ create_sparse_bow ["d1", "d2"] [["a"], []]
        (create_dictionary ["a"]) (create_dictionary ["d1", "d2"]) := by
  have h := sparse_bow_document_rows ["d1", "d2"] [["a"], []]
    (create_dictionary ["a"]) (create_dictionary ["d1", "d2"]) (by decide) (by decide)
  exact ⟨h.2 ("d2", []) (by decide) rfl, h.1 1 (by decide)⟩

/-- C2 (counterexample): removing the only feature of a one-document table
drops the document's entire row set; no sentinel row is added by
`remove_features`. -/
theorem remove_features_drops_empty_document :
    create_sparse_bow ["d1"] [["a"]] (create_dictionary ["a"]) (create_dictionary ["d1"])
      = [((1, 1), 1)]
    ∧ remove_features
        (create_sparse_bow ["d1"] [["a"]]
          (create_dictionary ["a"]) (create_dictionary ["d1"]))
        (create_dictionary ["a"]) ["a"]
      = [] := ⟨by decide, by decide⟩

/-- C6: `remove_features` drops exactly the rows whose token id is the
dictionary id of a feature present in both the dictionary and the feature
set; a 3-row table loses exactly its one matching row; features absent from
the dictionary are skipped silently and leave the table unchanged. -/
theorem remove_features_spec :
    (∀ (sparse_bow : List ((Nat × Nat) × Nat)) (id_types : TypeDict)
        (features : List String),
        (id_types.map Prod.fst).Nodup →
        remove_features sparse_bow id_types features
          = sparse_bow.filter
              (fun row => decide (¬∃ w ∈ features, (w, row.1.2) ∈ id_types)))
    ∧ (∀ (sparse_bow : List ((Nat × Nat) × Nat)) (id_types : TypeDict)
        (features : List String),
        (∀ w ∈ features, hasKey id_types w = false) →
        remove_features sparse_bow id_types features = sparse_bow)
    ∧ (create_sparse_bow ["exampletext"] [["short", "example", "example", "text", "text"]]
        [("short", 1), ("example", 2), ("text", 3)] [("exampletext", 1)]).length = 3
    ∧ (remove_features
        (create_sparse_bow ["exampletext"] [["short", "example", "example", "text", "text"]]
          [("short", 1), ("example", 2), ("text", 3)] [("exampletext", 1)])
        [("short", 1), ("example", 2), ("text", 3)] ["short"]).length = 2
    ∧ (remove_features
        (create_sparse_bow ["exampletext"] [["short", "example", "example", "text", "text"]]
          [("short", 1), ("example", 2), ("text", 3)] [("exampletext", 1)])
        [("short", 1), ("example", 2), ("text", 3)] ["absent"]).length = 3 := by
  refine ⟨?_, ?_, by decide, by decide, by decide⟩
  · intro bow d features hnd
    simp only [remove_features]
    apply List.filter_congr
    intro row _
    have hiff := mem_drop_ids_iff d features row.1.2 hnd
    cases hc : (((dedupFirst (d.map Prod.fst)).filter
        (fun word => features.contains word)).map
          (fun word => dictGet d word)).contains row.1.2
    · have hnex : ¬∃ w ∈ features, (w, row.1.2) ∈ d := by
        intro hex
        have := hiff.2 hex
        rw [hc] at this
        cases this
      simp [hc, hnex]
    · have hex := hiff.1 hc
      simp [hc, hex]
  · intro bow d features habs
    simp only [remove_features]
    rw [List.filter_eq_self]
    intro row _
    cases hc : (((dedupFirst (d.map Prod.fst)).filter
        (fun word => features.contains word)).map
          (fun word => dictGet d word)).contains row.1.2
    · rfl
    · exfalso
      have hmem := (contains_iff _ _).1 hc
      obtain ⟨word, hword, _⟩ := List.mem_map.1 hmem
      rw [List.mem_filter] at hword
      have h1 : hasKey d word = true :=
        (hasKey_iff_mem _ _).2 ((mem_dedupFirst _ _).1 hword.1)
      have h2 : word ∈ features := (contains_iff _ _).1 hword.2
      rw [habs word h2] at h1
      cases h1

theorem remove_features_spec_witness :
    remove_features [((1, 1), 1), ((1, 2), 2), ((1, 3), 2)]
        [("short", 1), ("example", 2), ("text", 3)] ["short"]
      = ([((1, 1), 1), ((1, 2), 2), ((1, 3), 2)] : List ((Nat × Nat) × Nat)).filter
          (fun row => decide (¬∃ w ∈ ["short"],
            (w, row.1.2) ∈ [("short", 1), ("example", 2), ("text", 3)]))
    ∧ remove_features [((1, 1), 1)] [("short", 1)] ["nope"] = [((1, 1), 1)] :=
  ⟨remove_features_spec.1 _ _ _ (by decide),
   remove_features_spec.2.1 _ _ _ (by decide)⟩

/-- C10 (amended): `remove_features` is silent for dictionary features whose
token id occurs in no row of the table as well — the drop is a row filter
with no error path in the pandas generation the code runs on, so such
features leave the table unchanged rather than raising a key-lookup error. -/
theorem remove_features_missing_table_id_silent :
    ∀ (sparse_bow : List ((Nat × Nat) × Nat)) (id_types : TypeDict)
      (features : List String),
      (∀ w ∈ features, hasKey id_types w = true →
        dictGet id_types w ∉ sparse_bow.map (fun row => row.1.2)) →
      remove_features sparse_bow id_types features = sparse_bow := by
  intro bow d features habs
  simp only [remove_features]
  rw [List.filter_eq_self]
  intro row hrow
  cases hc : (((dedupFirst (d.map Prod.fst)).filter
      (fun word => features.contains word)).map
        (fun word => dictGet d word)).contains row.1.2
  · rfl
  · exfalso
    have hmem := (contains_iff _ _).1 hc
    obtain ⟨word, hword, hw⟩ := List.mem_map.1 hmem
    rw [List.mem_filter] at hword
    have h1 : hasKey d word = true :=
      (hasKey_iff_mem _ _).2 ((mem_dedupFirst _ _).1 hword.1)
    have h2 : word ∈ features := (contains_iff _ _).1 hword.2
    refine habs word h2 h1 ?_
    rw [hw]
    exact List.mem_map.2 ⟨row, hrow, rfl⟩

theorem remove_features_missing_table_id_silent_witness :
    remove_features [((1, 2), 2), ((1, 3), 2)]
        [("short", 1), ("example", 2), ("text", 3)] ["short"]
      = [((1, 2), 2), ((1, 3), 2)] :=
  remove_features_missing_table_id_silent _ _ _ (by decide)

/-- C10 (counterexample): removing the same feature twice in a row returns
the once-filtered table unchanged — the second removal, whose feature id
occurs in no row, yields a table rather than raising. -/
theorem remove_features_double_removal :
    remove_features
        (create_sparse_bow ["exampletext"]
          [["short", "example", "example", "text", "text"]]
          [("short", 1), ("example", 2), ("text", 3)] [("exampletext", 1)])
        [("short", 1), ("example", 2), ("text", 3)] ["short"]
      = [((1, 2), 2), ((1, 3), 2)]
    ∧ remove_features [((1, 2), 2), ((1, 3), 2)]
        [("short", 1), ("example", 2), ("text", 3)] ["short"]
      = [((1, 2), 2), ((1, 3), 2)] := ⟨by decide, by decide⟩

theorem sndFind_of_mem {l : TypeDict} {w : String} {t : Nat}
    (hmem : (w, t) ∈ l) (hnd : (l.map Prod.snd).Nodup) :
    ((l.find? (fun p => p.2 == t)).map Prod.fst).getD "" = w := by
  induction l with
  | nil => cases hmem
  | cons p rest ih =>
    obtain ⟨w', t'⟩ := p
    rw [List.map_cons, List.nodup_cons] at hnd
    rcases List.mem_cons.1 hmem with he | hm
    · obtain ⟨rfl, rfl⟩ := Prod.mk.injEq .. ▸ he
      rw [List.find?_cons_of_pos _ (by simp)]
      rfl
    · have hk : t ≠ t' := by
        rintro rfl
        exact hnd.1 (List.mem_map.2 ⟨(w, t), hm, rfl⟩)
      rw [List.find?_cons_of_neg _ (by simp [Ne.symm hk])]
      exact ih hm hnd.2

theorem type2idGet_of_mem {d : TypeDict} {w : String} {t : Nat}
    (hmem : (w, t) ∈ d) (hnd : (d.map Prod.snd).Nodup) : type2idGet d t = w := by
  unfold type2idGet
  refine sndFind_of_mem (List.mem_reverse.2 hmem) ?_
  rw [List.map_reverse]
  exact List.nodup_reverse.2 hnd

theorem type2id_mem_of_value {d : TypeDict} {t : Nat} (h : t ∈ d.map Prod.snd) :
    (type2idGet d t, t) ∈ d := by
  have h' : t ∈ d.reverse.map Prod.snd := by
    rw [List.map_reverse, List.mem_reverse]
    exact h
  obtain ⟨e, he, he2⟩ := List.mem_map.1 h'
  have hsome : (d.reverse.find? (fun p => p.2 == t)).isSome :=
    List.find?_isSome.2 ⟨e, he, by simp [he2]⟩
  obtain ⟨e', he'⟩ := Option.isSome_iff_exists.1 hsome
  have hpred := List.find?_some he'
  have hmem' : e' ∈ d := List.mem_reverse.1 (List.mem_of_find?_eq_some he')
  have he'2 : e'.2 = t := by simpa using hpred
  have hget : type2idGet d t = e'.1 := by
    unfold type2idGet
    rw [he']
    rfl
  rw [hget, ← he'2]
  exact hmem'

theorem collapsedCount_eq_zero_of_not_mem {sparse_bow : List ((Nat × Nat) × Nat)}
    {t : Nat} (h : t ∉ sparse_bow.map (fun row => row.1.2)) :
    collapsedCount sparse_bow t = 0 := by
  unfold collapsedCount
  have hfil : sparse_bow.filter (fun row => row.1.2 == t) = [] := by
    rw [List.filter_eq_nil_iff]
    intro row hrow hbeq
    exact h (List.mem_map.2 ⟨row, hrow, by simpa using hbeq⟩)
  rw [hfil]
  rfl

/-- C7: `find_hapax` returns exactly the token strings whose counts summed
across all documents equal 1 (for a dictionary whose ids are distinct and
cover the table's token ids); on the table of
`[["short","example","example","text","text"]]` it returns `["short"]`. -/
theorem find_hapax_spec :
    (∀ (sparse_bow : List ((Nat × Nat) × Nat)) (id_types : TypeDict),
        (id_types.map Prod.snd).Nodup →
        (∀ t ∈ sparse_bow.map (fun row => row.1.2), t ∈ id_types.map Prod.snd) →
        ∀ w, w ∈ find_hapax sparse_bow id_types
          ↔ ∃ t, (w, t) ∈ id_types ∧ collapsedCount sparse_bow t = 1)
    ∧ find_hapax
        (create_sparse_bow ["exampletext"]
          [["short", "example", "example", "text", "text"]]
          [("short", 1), ("example", 2), ("text", 3)] [("exampletext", 1)])
        [("short", 1), ("example", 2), ("text", 3)] = ["short"] := by
  refine ⟨?_, by decide⟩
  intro bow d hvnd hcov w
  simp only [find_hapax, collapseByTokenId]
  constructor
  · intro hw
    obtain ⟨p, hp, hpw⟩ := List.mem_map.1 hw
    rw [List.mem_filter] at hp
    obtain ⟨hpc, hp1⟩ := hp
    obtain ⟨t, ht, rfl⟩ := List.mem_map.1 hpc
    have ht2 : t ∈ bow.map (fun row => row.1.2) :=
      (mem_dedupFirst _ _).1
        ((List.perm_insertionSort _ _).mem_iff.1 ht)
    have hc1 : collapsedCount bow t = 1 := by simpa using hp1
    have htd : t ∈ d.map Prod.snd := hcov t ht2
    refine ⟨t, ?_, hc1⟩
    rw [← hpw]
    exact type2id_mem_of_value htd
  · rintro ⟨t, hwt, hc1⟩
    have ht2 : t ∈ bow.map (fun row => row.1.2) := by
      by_contra hnot
      rw [collapsedCount_eq_zero_of_not_mem hnot] at hc1
      cases hc1
    have ht3 : t ∈ List.insertionSort (· ≤ ·)
        (dedupFirst (bow.map (fun row => row.1.2))) :=
      (List.perm_insertionSort _ _).mem_iff.2 ((mem_dedupFirst _ _).2 ht2)
    refine List.mem_map.2 ⟨(t, collapsedCount bow t), ?_, ?_⟩
    · rw [List.mem_filter]
      exact ⟨List.mem_map.2 ⟨t, ht3, rfl⟩, by simp [hc1]⟩
    · simpa using type2idGet_of_mem hwt hvnd

theorem find_hapax_spec_witness :
    "short" ∈ find_hapax [((1, 1), 1), ((1, 2), 2)] [("short", 1), ("example", 2)]
      ↔ ∃ t, ("short", t) ∈ ([("short", 1), ("example", 2)] : TypeDict)
        ∧ collapsedCount [((1, 1), 1), ((1, 2), 2)] t = 1 :=
  find_hapax_spec.1 [((1, 1), 1), ((1, 2), 2)] [("short", 1), ("example", 2)]
    (by decide) (by decide) "short"

theorem foldr_max_eq_max? (l : List Nat) : l.foldr max 0 = l.max?.getD 0 := by
  induction l with
  | nil => rfl
  | cons a l ih =>
    rw [List.foldr_cons, ih, List.max?_cons]
    cases hl : l.max? with
    | none => simp
    | some m => simp

/-- C9: the exporter writes the fixed banner, then the header whose first
two fields are the maxima of the doc-id and token-id index levels (not
counts of distinct values) and whose third is the total count, then one
`doc_id token_id count` line per row in row order; a single document with
one token of count 3 gets header `"1 1 3"` and data row `"1 1 3"`; a table
with non-contiguous ids keeps the maxima (`"2 5 7"`, not `"1 1 7"`). -/
theorem save_sparse_bow_spec :
    (∀ sparse_bow : List ((Nat × Nat) × Nat),
      save_sparse_bow sparse_bow = spec_exporter_lines sparse_bow)
    ∧ save_sparse_bow
        (create_sparse_bow ["exampletext"] [["word", "word", "word"]]
          [("word", 1)] [("exampletext", 1)])
        = ["%%MatrixMarket matrix coordinate real general", "1 1 3", "1 1 3"]
    ∧ save_sparse_bow [((2, 5), 7)]
        = ["%%MatrixMarket matrix coordinate real general", "2 5 7", "2 5 7"] := by
  refine ⟨?_, by decide, by decide⟩
  intro bow
  simp only [save_sparse_bow, spec_exporter_lines, foldr_max_eq_max?]

theorem tokOK_append {Q : Char → Prop} {ts : List (List Char)} {r : List Char}
    (ht : tokOK Q ts) (h2 : 2 ≤ r.length) (hr : ∀ c ∈ r, Q c) :
    tokOK Q (ts ++ [r]) := by
  intro t htm
  rcases List.mem_append.1 htm with h | h
  · exact ht t h
  · rw [List.mem_singleton] at h
    subst h
    exact ⟨h2, hr⟩

theorem tokOK_emit {Q : Char → Prop} {ts : List (List Char)} {r : List Char}
    (ht : tokOK Q ts) (hr : ∀ c ∈ r, Q c) :
    tokOK Q (if 2 ≤ r.length then ts ++ [r] else ts) := by
  split
  · exact tokOK_append ht (by assumption) hr
  · exact ht

theorem scanStep_ok {Q : Char → Prop} {ts : List (List Char)} {st : ScanState}
    {c : Char} (hQ : Q c) (ht : tokOK Q ts) (hs : stOK Q st) :
    tokOK Q (scanStep (ts, st) c).1 ∧ stOK Q (scanStep (ts, st) c).2 := by
  cases st with
  | out =>
    simp only [scanStep]
    split
    · refine ⟨ht, by simp, ?_⟩
      intro d hd
      rw [List.mem_singleton] at hd
      subst hd
      exact hQ
    · exact ⟨ht, trivial⟩
  | run1 r1 =>
    obtain ⟨hne, hr1⟩ := hs
    simp only [scanStep]
    split
    · refine ⟨ht, by simp, ?_⟩
      intro d hd
      rcases List.mem_append.1 hd with h | h
      · exact hr1 d h
      · rw [List.mem_singleton] at h
        subst h
        exact hQ
    · split
      · exact ⟨ht, ⟨hne, hr1⟩, hQ⟩
      · exact ⟨tokOK_emit ht hr1, trivial⟩
  | pun r1 p =>
    obtain ⟨⟨hne, hr1⟩, hp⟩ := hs
    simp only [scanStep]
    split
    · refine ⟨ht, ⟨⟨hne, hr1⟩, hp⟩, by simp, ?_⟩
      intro d hd
      rw [List.mem_singleton] at hd
      subst hd
      exact hQ
    · exact ⟨tokOK_emit ht hr1, trivial⟩
  | run2 r1 p r2 =>
    obtain ⟨⟨⟨hne1, hr1⟩, hp⟩, hne2, hr2⟩ := hs
    simp only [scanStep]
    split
    · refine ⟨ht, ⟨⟨hne1, hr1⟩, hp⟩, by simp, ?_⟩
      intro d hd
      rcases List.mem_append.1 hd with h | h
      · exact hr2 d h
      · rw [List.mem_singleton] at h
        subst h
        exact hQ
    · refine ⟨?_, trivial⟩
      apply tokOK_append ht
      · have h1 := List.length_pos.2 hne1
        rw [List.length_append, List.length_cons]
        omega
      · intro d hd
        rcases List.mem_append.1 hd with h | h
        · exact hr1 d h
        · rcases List.mem_cons.1 h with rfl | h
          · exact hp
          · exact hr2 d h

theorem scanFold_ok (Q : Char → Prop) (l : List Char) (hl : ∀ c ∈ l, Q c) :
    ∀ acc : List (List Char) × ScanState, tokOK Q acc.1 → stOK Q acc.2 →
      tokOK Q (l.foldl scanStep acc).1 ∧ stOK Q (l.foldl scanStep acc).2 := by
  induction l with
  | nil => exact fun acc h1 h2 => ⟨h1, h2⟩
  | cons c l ih =>
    intro acc h1 h2
    rw [List.foldl_cons]
    obtain ⟨ts, st⟩ := acc
    have hstep := scanStep_ok (hl c (List.mem_cons_self _ _)) h1 h2
    exact ih (fun d hd => hl d (List.mem_cons_of_mem _ hd)) _ hstep.1 hstep.2

theorem scanFlush_ok {Q : Char → Prop} {acc : List (List Char) × ScanState}
    (ht : tokOK Q acc.1) (hs : stOK Q acc.2) : tokOK Q (scanFlush acc) := by
  obtain ⟨ts, st⟩ := acc
  cases st with
  | out => exact ht
  | run1 r1 =>
    obtain ⟨_, hr1⟩ := hs
    exact tokOK_emit ht hr1
  | pun r1 p =>
    obtain ⟨⟨_, hr1⟩, _⟩ := hs
    exact tokOK_emit ht hr1
  | run2 r1 p r2 =>
    obtain ⟨⟨⟨hne1, hr1⟩, hp⟩, _, hr2⟩ := hs
    apply tokOK_append ht
    · have h1 := List.length_pos.2 hne1
      rw [List.length_append, List.length_cons]
      omega
    · intro d hd
      rcases List.mem_append.1 hd with h | h
      · exact hr1 d h
      · rcases List.mem_cons.1 h with rfl | h
        · exact hp
        · exact hr2 d h

theorem findallDefault_ok (Q : Char → Prop) (l : List Char) (hl : ∀ c ∈ l, Q c) :
    ∀ t ∈ findallDefault l, 2 ≤ t.length ∧ ∀ c ∈ t, Q c := by
  have h := scanFold_ok Q l hl ([], .out) (by intro t ht; cases ht) trivial
  exact fun t ht => scanFlush_ok h.1 h.2 t ht

theorem char_toNat_ofNat {n : Nat} (h : n.isValidChar) : (Char.ofNat n).toNat = n := by
  simp only [Char.ofNat]
  rw [dif_pos h]
  rfl

theorem toLower_idem (c : Char) : Char.toLower (Char.toLower c) = Char.toLower c := by
  by_cases h : c.toNat ≥ 65 ∧ c.toNat ≤ 90
  · have h1 : Char.toLower c = Char.ofNat (c.toNat + 32) := by
      simp only [Char.toLower]
      rw [if_pos h]
    rw [h1]
    have ht : (Char.ofNat (c.toNat + 32)).toNat = c.toNat + 32 :=
      char_toNat_ofNat (Or.inl (by omega))
    simp only [Char.toLower]
    rw [if_neg (by rw [ht]; omega)]
  · have h1 : Char.toLower c = c := by
      simp only [Char.toLower]
      rw [if_neg h]
    rw [h1, h1]

/-- C8: `tokenize` with default settings on `"This is one example text."`
yields exactly `["this","is","one","example","text"]`; with the default
pattern every yielded token has at least two characters (so never a single
letter); with lowering enabled every yielded token is lowercase-fixed. -/
theorem tokenize_default_spec :
    tokenizeStr "This is one example text." true false
      = ["this", "is", "one", "example", "text"]
    ∧ (∀ (doc : List Char) (t : List Char), t ∈ tokenize doc true false →
        2 ≤ t.length)
    ∧ (∀ (doc : List Char) (t : List Char), t ∈ tokenize doc true false →
        ∀ c ∈ t, Char.toLower c = c) := by
  refine ⟨by decide, ?_, ?_⟩
  · intro doc t htm
    have hdef : tokenize doc true false
        = findallDefault (((doc.map Char.toLower).filter (fun c => !(c == '.'))).map
            (fun c => if c = '‒' ∨ c = '–' ∨ c = '—' ∨ c = '―' then ' ' else c)) := rfl
    rw [hdef] at htm
    exact (findallDefault_ok (fun _ => True) _ (fun _ _ => trivial) t htm).1
  · intro doc t htm
    have hdef : tokenize doc true false
        = findallDefault (((doc.map Char.toLower).filter (fun c => !(c == '.'))).map
            (fun c => if c = '‒' ∨ c = '–' ∨ c = '—' ∨ c = '―' then ' ' else c)) := rfl
    rw [hdef] at htm
    have hdoc3 : ∀ d ∈ ((doc.map Char.toLower).filter (fun c => !(c == '.'))).map
        (fun c => if c = '‒' ∨ c = '–' ∨ c = '—' ∨ c = '―' then ' ' else c),
        Char.toLower d = d := by
      intro d hd
      obtain ⟨x, hx, rfl⟩ := List.mem_map.1 hd
      by_cases hdash : x = '‒' ∨ x = '–' ∨ x = '—' ∨ x = '―'
      · rw [if_pos hdash]
        decide
      · rw [if_neg hdash]
        have hx2 : x ∈ doc.map Char.toLower := List.mem_of_mem_filter hx
        obtain ⟨y, _, rfl⟩ := List.mem_map.1 hx2
        exact toLower_idem y
    exact fun c hc =>
      (findallDefault_ok (fun d => Char.toLower d = d) _ hdoc3 t htm).2 c hc

theorem tokenize_default_spec_witness :
    2 ≤ (['a', 'b'] : List Char).length
    ∧ ∀ c ∈ (['a', 'b'] : List Char), Char.toLower c = c :=
  ⟨tokenize_default_spec.2.1 "Ab".toList ['a', 'b'] (by decide),
   fun c hc => tokenize_default_spec.2.2 "Ab".toList ['a', 'b'] (by decide) c hc⟩

/-- C4 (code bug): with a negative tolerance, a chunk of length at least
twice the target is evicted from a singleton segment and re-carried
unchanged, so the loop yields empty segments forever and never finishes —
on `[["a","b","c","d"]]` with target 2 and tolerance -1 the loop state
repeats at every fuel and `segment_fuzzy` exhausts any budget.  The
specified behaviour does hold below that threshold: `[["a","b","c"]]` with
target 2 and tolerance -1 is kept whole as one oversized single-chunk
segment. -/
theorem segment_fuzzy_negative_tolerance_bug :
    (∀ fuel : Nat,
      segmentLoop 2 (-1) fuel ([] : List (List String))
        (some ["a", "b", "c", "d"]) [] 0 = none)
    ∧ segment_fuzzy [["a", "b", "c", "d"]] 2 (-1) = none
    ∧ segment_fuzzy [["a", "b", "c"]] 2 (-1) = some [[["a", "b", "c"]]] := by
  have hcycle : ∀ fuel : Nat,
      segmentLoop 2 (-1) fuel ([] : List (List String))
        (some ["a", "b", "c", "d"]) [] 0 = none := by
    intro fuel
    induction fuel with
    | zero => rfl
    | succ fuel ih =>
      have hstep : segmentLoop 2 (-1) (fuel + 1) ([] : List (List String))
          (some ["a", "b", "c", "d"]) [] 0
        = (segmentLoop 2 (-1) fuel ([] : List (List String))
            (some ["a", "b", "c", "d"]) [] 0).map (fun segs => [] :: segs) := rfl
      rw [hstep, ih]
      rfl
  refine ⟨hcycle, ?_, by decide⟩
  have h1 : segment_fuzzy [["a", "b", "c", "d"]] 2 (-1)
      = (segmentLoop 2 (-1) 9 ([] : List (List String))
          (some ["a", "b", "c", "d"]) [] 0).map (fun segs => [] :: segs) := rfl
  rw [h1, hcycle 9]
  rfl

/-- One loop iteration neither loses nor duplicates tokens: whatever the
continuation conserves, the body conserves. -/
theorem segmentBody_conservation {α : Type} (size : Nat) (tol : ℤ)
    (recur : List (List α) → Option (List α) → List (List α) → Nat →
      Option (List (List (List α))))
    (hrec : ∀ (d : List (List α)) (c : Option (List α)) (cu : List (List α))
      (s : Nat) (segs : List (List (List α))),
      recur d c cu s = some segs →
      segs.flatten.flatten = cu.flatten ++ c.getD [] ++ d.flatten)
    (chunk : List α) (doc' : List (List α)) (cur : List (List α)) (sizeN : Nat)
    (segs : List (List (List α)))
    (h : segmentBody size tol recur chunk doc' cur sizeN = some segs) :
    segs.flatten.flatten = cur.flatten ++ chunk ++ doc'.flatten := by
  simp only [segmentBody] at h
  split at h
  · split at h
    · -- split the chunk: prefix kept, suffix carried
      obtain ⟨segs', hs', rfl⟩ := Option.map_eq_some'.1 h
      have hinner := hrec _ _ _ _ _ hs'
      simp only [List.flatten_nil, List.nil_append, Option.getD_some] at hinner
      have hdrop : (cur ++ [chunk]).dropLast = cur := by simp
      rw [hdrop]
      simp only [List.flatten_cons, List.flatten_append, List.flatten_nil,
        List.append_nil, hinner, List.append_assoc]
      congr 1
      rw [← List.append_assoc]
      congr 1
      by_cases hk : (((sizeN + chunk.length : ℕ) : ℤ) - (size : ℤ)).toNat = 0
      · rw [if_pos hk, if_pos hk]
        rfl
      · rw [if_neg hk, if_neg hk]
        exact List.take_append_drop _ chunk
    · split at h
      · -- evict the whole chunk
        obtain ⟨segs', hs', rfl⟩ := Option.map_eq_some'.1 h
        have hinner := hrec _ _ _ _ _ hs'
        simp only [List.flatten_nil, List.nil_append, Option.getD_some] at hinner
        have hdrop : (cur ++ [chunk]).dropLast = cur := by simp
        rw [hdrop]
        simp only [List.flatten_cons, List.flatten_append, hinner,
          List.append_assoc]
      · -- keep the chunk in the emitted segment
        obtain ⟨segs', hs', rfl⟩ := Option.map_eq_some'.1 h
        have hinner := hrec _ _ _ _ _ hs'
        simp only [List.flatten_nil, List.nil_append, Option.getD_none] at hinner
        simp only [List.flatten_cons, List.flatten_append, List.flatten_nil,
          List.append_nil, hinner, List.append_assoc]
  · -- still under the target: accumulate
    have hinner := hrec _ _ _ _ _ h
    simp only [Option.getD_none, List.nil_append] at hinner
    simp only [hinner, List.flatten_append, List.flatten_cons, List.flatten_nil,
      List.append_nil, List.append_assoc]

/-- The loop neither loses nor duplicates tokens, in yield order: whenever
it finishes, the concatenation of all tokens of all yielded segments is the
pending segment's tokens, then the carry, then the remaining document. -/
theorem segmentLoop_conservation {α : Type} (size : Nat) (tol : ℤ) :
    ∀ (fuel : Nat) (doc : List (List α)) (carry : Option (List α))
      (cur : List (List α)) (sizeN : Nat) (segs : List (List (List α))),
      segmentLoop size tol fuel doc carry cur sizeN = some segs →
      segs.flatten.flatten = cur.flatten ++ carry.getD [] ++ doc.flatten := by
  intro fuel
  induction fuel with
  | zero =>
    intro doc carry cur sizeN segs h
    simp [segmentLoop] at h
  | succ fuel ih =>
    intro doc carry cur sizeN segs h
    rcases carry with _ | c
    · rcases doc with _ | ⟨chunk, doc'⟩
      · simp only [segmentLoop] at h
        injection h with h
        subst h
        rcases cur with _ | ⟨x, xs⟩ <;> simp
      · simp only [segmentLoop] at h
        have := segmentBody_conservation size tol _
          (fun d c cu s segs hh => ih d c cu s segs hh) _ _ _ _ _ h
        simpa using this
    · rcases c with _ | ⟨a, rest⟩
      · rcases doc with _ | ⟨chunk, doc'⟩
        · simp only [segmentLoop] at h
          injection h with h
          subst h
          rcases cur with _ | ⟨x, xs⟩ <;> simp
        · simp only [segmentLoop] at h
          have := segmentBody_conservation size tol _
            (fun d c cu s segs hh => ih d c cu s segs hh) _ _ _ _ _ h
          simpa using this
      · simp only [segmentLoop] at h
        have := segmentBody_conservation size tol _
          (fun d c cu s segs hh => ih d c cu s segs hh) _ _ _ _ _ h
        simpa using this

/-- One loop iteration strictly decreases the measure whenever
`0 ≤ tolerance < segment_size`, so the body finishes within any budget that
covers the drawn chunk plus the rest of the state. -/
theorem segmentBody_isSome {α : Type} (size : Nat) (tol : ℤ) (h1 : 1 ≤ size)
    (h0 : 0 ≤ tol) (hlt : tol < (size : ℤ)) (bound : Nat)
    (recur : List (List α) → Option (List α) → List (List α) → Nat →
      Option (List (List (List α))))
    (hrec : ∀ (d : List (List α)) (c : Option (List α)) (cu : List (List α))
      (s : Nat), s < size → s = cu.flatten.length → segPhi d c cu < bound →
      (recur d c cu s).isSome)
    (chunk : List α) (doc' : List (List α)) (cur : List (List α)) (sizeN : Nat)
    (hsz : sizeN < size) (hcur : sizeN = cur.flatten.length)
    (hmu : 2 * chunk.length + 1 + segPhi doc' none cur ≤ bound) :
    (segmentBody size tol recur chunk doc' cur sizeN).isSome := by
  simp only [segmentBody]
  split
  · split
    · -- split branch: the carry shrinks below the chunk
      rw [Option.isSome_map']
      have hcond : 0 ≤ tol ∧
          tol < min (((sizeN + chunk.length : ℕ) : ℤ) - (size : ℤ))
            ((size : ℤ) - (sizeN : ℤ)) := by assumption
      have htl : (0 : ℤ) < ((sizeN + chunk.length : ℕ) : ℤ) - (size : ℤ) := by
        have := lt_of_le_of_lt hcond.1 hcond.2
        have h2 := lt_of_lt_of_le this (min_le_left _ _)
        exact h2
      have hk1 : 1 ≤ (((sizeN + chunk.length : ℕ) : ℤ) - (size : ℤ)).toNat := by
        omega
      have hklen : (((sizeN + chunk.length : ℕ) : ℤ) - (size : ℤ)).toNat
          < chunk.length := by
        omega
      apply hrec _ _ _ _ h1 (by simp)
      rw [if_neg (by omega)]
      simp only [segPhi, List.length_drop, List.flatten_nil, List.length_nil]
      simp only [segPhi, List.flatten_nil, List.length_nil] at hmu
      omega
    · split
      · -- evict branch: the pending segment is nonempty and is emitted
        rw [Option.isSome_map']
        have hts : (size : ℤ) - (sizeN : ℤ) ≤
            ((sizeN + chunk.length : ℕ) : ℤ) - (size : ℤ) := by assumption
        have hnot : ¬(0 ≤ tol ∧
            tol < min (((sizeN + chunk.length : ℕ) : ℤ) - (size : ℤ))
              ((size : ℤ) - (sizeN : ℤ))) := by assumption
        have hmin : min (((sizeN + chunk.length : ℕ) : ℤ) - (size : ℤ))
            ((size : ℤ) - (sizeN : ℤ)) ≤ tol := by
          rcases not_and_or.1 hnot with hc | hc
          · exact absurd h0 hc
          · exact le_of_not_lt hc
        have hmin2 : (size : ℤ) - (sizeN : ℤ) ≤ tol := by
          rw [min_eq_right hts] at hmin
          exact hmin
        have hsz1 : 1 ≤ sizeN := by omega
        apply hrec _ _ _ _ h1 (by simp)
        simp only [segPhi, List.flatten_nil, List.length_nil]
        simp only [segPhi, List.flatten_nil, List.length_nil] at hmu
        omega
      · -- keep branch
        rw [Option.isSome_map']
        apply hrec _ _ _ _ h1 (by simp)
        simp only [segPhi, List.flatten_nil, List.length_nil]
        simp only [segPhi, List.flatten_nil, List.length_nil] at hmu
        omega
  · -- accumulate branch
    have hlt2 : sizeN + chunk.length < size := by omega
    apply hrec _ _ _ _ hlt2
    · simp [hcur]
    · simp only [segPhi]
      simp only [segPhi] at hmu
      simp only [List.flatten_append, List.length_append, List.flatten_cons,
        List.flatten_nil, List.append_nil]
      omega

/-- For `0 ≤ tolerance < segment_size` the loop finishes within any fuel
exceeding the measure. -/
theorem segmentLoop_isSome {α : Type} (size : Nat) (tol : ℤ) (h1 : 1 ≤ size)
    (h0 : 0 ≤ tol) (hlt : tol < (size : ℤ)) :
    ∀ (fuel : Nat) (doc : List (List α)) (carry : Option (List α))
      (cur : List (List α)) (sizeN : Nat),
      sizeN < size → sizeN = cur.flatten.length → segPhi doc carry cur < fuel →
      (segmentLoop size tol fuel doc carry cur sizeN).isSome := by
  intro fuel
  induction fuel with
  | zero =>
    intro doc carry cur sizeN _ _ hphi
    exact absurd hphi (Nat.not_lt_zero _)
  | succ fuel ih =>
    intro doc carry cur sizeN hsz hcur hphi
    rcases carry with _ | c
    · rcases doc with _ | ⟨chunk, doc'⟩
      · simp [segmentLoop]
      · simp only [segmentLoop]
        apply segmentBody_isSome size tol h1 h0 hlt fuel _
          (fun d c cu s hs hc hp => ih d c cu s hs hc hp) _ _ _ _ hsz hcur
        simp only [segPhi, List.map_cons, List.sum_cons, List.length_cons] at hphi
        simp only [segPhi]
        omega
    · rcases c with _ | ⟨a, rest⟩
      · rcases doc with _ | ⟨chunk, doc'⟩
        · simp [segmentLoop]
        · simp only [segmentLoop]
          apply segmentBody_isSome size tol h1 h0 hlt fuel _
            (fun d c cu s hs hc hp => ih d c cu s hs hc hp) _ _ _ _ hsz hcur
          simp only [segPhi, List.map_cons, List.sum_cons, List.length_cons,
            List.length_nil] at hphi
          simp only [segPhi]
          omega
      · simp only [segmentLoop]
        apply segmentBody_isSome size tol h1 h0 hlt fuel _
          (fun d c cu s hs hc hp => ih d c cu s hs hc hp) _ _ _ _ hsz hcur
        simp only [segPhi, List.length_cons] at hphi
        simp only [segPhi, List.length_cons]
        omega

/-- C3: segmentation is lossless and order-preserving — whenever the
generator finishes, the concatenation of all tokens of all yielded segments
equals the concatenation of the input chunks, and for every tolerance in
`[0, segment_size)` (which covers every converted fractional tolerance, the
default included) it does finish within the standard budget; the default
tolerance 0.05 converts to 0 at target size 2, and the docstring example
yields exactly the four expected segments. -/
theorem segment_fuzzy_lossless :
    (∀ (α : Type) (size : Nat) (tol : ℤ) (fuel : Nat) (doc : List (List α))
        (segs : List (List (List α))),
        segmentLoop size tol fuel doc none [] 0 = some segs →
        segs.flatten.flatten = doc.flatten)
    ∧ (∀ (α : Type) (size : Nat) (tol : ℤ) (doc : List (List α)),
        1 ≤ size → 0 ≤ tol → tol < (size : ℤ) →
        ∃ segs, segment_fuzzy doc size tol = some segs
          ∧ segs.flatten.flatten = doc.flatten)
    ∧ convertFracTolerance 2 (1/20) = 0
    ∧ segment_fuzzy [["This", "test", "is", "very", "clear"],
        ["and", "contains", "chunks"]] 2 0
      = some [[["This", "test"]], [["is", "very"]], [["clear"], ["and"]],
          [["contains", "chunks"]]] := by
  refine ⟨?_, ?_, ?_, by decide⟩
  · intro α size tol fuel doc segs h
    have := segmentLoop_conservation size tol fuel doc none [] 0 segs h
    simpa using this
  · intro α size tol doc hs1 ht0 htlt
    have hsome := segmentLoop_isSome size tol hs1 ht0 htlt (segmentFuel doc)
      doc none [] 0 (by omega) (by simp) (by simp [segmentFuel])
    obtain ⟨segs, hsegs⟩ := Option.isSome_iff_exists.1 hsome
    refine ⟨segs, hsegs, ?_⟩
    have := segmentLoop_conservation size tol (segmentFuel doc) doc none [] 0 segs hsegs
    simpa using this
  · unfold convertFracTolerance pyRound
    norm_num

theorem segment_fuzzy_lossless_witness :
    (([[["This", "test"]], [["is", "very"]], [["clear"], ["and"]],
        [["contains", "chunks"]]] : List (List (List String))).flatten.flatten
      = ([["This", "test", "is", "very", "clear"],
          ["and", "contains", "chunks"]] : List (List String)).flatten)
    ∧ ∃ segs, segment_fuzzy [["a", "b", "c"]] 2 0 = some segs
        ∧ segs.flatten.flatten
          = ([["a", "b", "c"]] : List (List String)).flatten :=
  ⟨segment_fuzzy_lossless.1 String 2 0 20
      [["This", "test", "is", "very", "clear"], ["and", "contains", "chunks"]]
      [[["This", "test"]], [["is", "very"]], [["clear"], ["and"]],
        [["contains", "chunks"]]] (by decide),
   segment_fuzzy_lossless.2.1 String 2 0 [["a", "b", "c"]]
      (by decide) (by decide) (by decide)⟩

end Topics
